import Mathlib

/-!
# Verification of `FairLimitedHeap`

A shallow embedding of `FairLimitedHeap.py`: the CPython `heapq` primitives
(`heappush`, `heappop` with their `_siftdown` / `_siftup` helpers, translated
from CPython's `Lib/heapq.py`, which the source delegates to), the
`FairLimitedHeap` class (`push` with its tie-scan and conditional eviction,
`pop`, `as_sorted_list`, construction from `initial`), and the
`NonNanFairLimitedHeap` subclass's `push`.

Entries are `(score, item)` pairs compared by Python's tuple order: first the
scores, then (on exact score equality) the items.  Scores and items live in
arbitrary linear orders, matching the source's requirement that both be
orderable.  The sift loops are written with an explicit fuel argument (an
upper bound on the number of loop iterations, supplied by the wrappers) so
that every definition is structurally recursive and computable by the kernel;
the specification lemmas show the fuel never runs out.

Python exceptions are modelled explicitly where a claim depends on them
(`PyErr`); `heapq.heappop` on an empty list is `none`.
-/

namespace Heapq

variable {β α : Type} [LinearOrder β] [LinearOrder α]

/-- Python's `<` on `(score, item)` tuples: lexicographic, short-circuiting on
the scores, comparing items only on exact score equality. -/
def plt (x y : β × α) : Bool :=
  decide (x.1 < y.1) || (decide (x.1 = y.1) && decide (x.2 < y.2))

/-- Index of the parent of heap-array slot `i` (CPython's `(pos - 1) >> 1`). -/
def parentIdx (i : Nat) : Nat := (i - 1) / 2

/-- CPython `_siftdown(heap, startpos, pos)` (bubble the new item toward the
root), with `newitem` passed explicitly (it is `heap[pos]` at entry) and a fuel
bound on the iteration count.  Each iteration moves `pos` to its parent, so
`pos` itself is enough fuel; `siftdown` below supplies it. -/
def siftdownF : Nat → List (β × α) → Nat → Nat → β × α → List (β × α)
  | 0, heap, _, pos, newitem => heap.set pos newitem
  | fuel + 1, heap, startpos, pos, newitem =>
    if startpos < pos then
      let parentpos := parentIdx pos
      let parent := heap.getD parentpos newitem
      if plt newitem parent then
        siftdownF fuel (heap.set pos parent) startpos parentpos newitem
      else heap.set pos newitem
    else heap.set pos newitem

/-- CPython `_siftdown(heap, startpos, pos)` with `newitem = heap[pos]`. -/
def siftdown (heap : List (β × α)) (startpos pos : Nat) (newitem : β × α) :
    List (β × α) :=
  siftdownF pos heap startpos pos newitem

/-- CPython `_siftup(heap, pos)` (move the hole down to a leaf along the
smaller children, then `_siftdown` the new item back up), with `newitem`
passed explicitly and a fuel bound.  Each iteration strictly increases `pos`
below `heap.length`, so `heap.length` iterations suffice. -/
def siftupF : Nat → List (β × α) → Nat → Nat → β × α → List (β × α)
  | 0, heap, startpos, pos, newitem => siftdown (heap.set pos newitem) startpos pos newitem
  | fuel + 1, heap, startpos, pos, newitem =>
    let endpos := heap.length
    let childpos := 2 * pos + 1
    if childpos < endpos then
      let rightpos := childpos + 1
      let childpos :=
        if rightpos < endpos &&
            !(plt (heap.getD childpos newitem) (heap.getD rightpos newitem)) then
          rightpos
        else childpos
      siftupF fuel (heap.set pos (heap.getD childpos newitem)) startpos childpos newitem
    else siftdown (heap.set pos newitem) startpos pos newitem

/-- CPython `_siftup(heap, pos)` with `newitem = heap[pos]` and
`startpos = pos`. -/
def siftup (heap : List (β × α)) (pos : Nat) (newitem : β × α) : List (β × α) :=
  siftupF heap.length heap pos pos newitem

/-- CPython `heapq.heappush`: append, then `_siftdown(heap, 0, len(heap)-1)`. -/
def heappush (heap : List (β × α)) (item : β × α) : List (β × α) :=
  siftdown (heap ++ [item]) 0 heap.length item

/-- CPython `heapq.heappop`: pop the last element; if the heap is still
nonempty, move the last element to the root and `_siftup(heap, 0)`.  Returns
`none` on an empty heap (Python: `IndexError: pop from empty list`). -/
def heappop (heap : List (β × α)) : Option ((β × α) × List (β × α)) :=
  match heap.getLast? with
  | none => none
  | some lastelt =>
    let rest := heap.dropLast
    if rest.isEmpty then some (lastelt, [])
    else some (rest.headD lastelt, siftup (rest.set 0 lastelt) 0 lastelt)

end Heapq

open Heapq

/-- Python exceptions that `FairLimitedHeap.pop` can raise, distinguished the
way CPython distinguishes them. -/
inductive PyErr : Type
  /-- `IndexError: pop from empty list` (from `list.pop()` inside
  `heapq.heappop` on an empty heap). -/
  | popFromEmptyList
  /-- `IndexError: list index out of range` (from subscripting `self._data[1]`
  when the internal list has fewer than two elements). -/
  | listIndexOutOfRange
  /-- `AttributeError` (from `heapq.heappop(self._data[1])`: `self._data[1]`
  is a `(score, item)` tuple, and tuples have no `pop` method). -/
  | attributeError
deriving DecidableEq

/-- The value `FairLimitedHeap.pop` returns when it does not raise: the
`(score, item)` pair (when `also_return_score` is true) or the bare item. -/
inductive PopResult (β α : Type) : Type
  | pair (e : β × α)
  | item (a : α)
deriving DecidableEq

instance {ε a : Type} [DecidableEq ε] [DecidableEq a] : DecidableEq (Except ε a) :=
  fun x y =>
    match x, y with
    | Except.ok u, Except.ok v => decidable_of_iff (u = v) (by simp)
    | Except.error u, Except.error v => decidable_of_iff (u = v) (by simp)
    | Except.ok _, Except.error _ => isFalse (by simp)
    | Except.error _, Except.ok _ => isFalse (by simp)

/-- The state of a `FairLimitedHeap`: the configured soft limit and the
internal list `self._data` of `(score, item)` tuples maintained by `heapq`. -/
structure FairLimitedHeap (β α : Type) : Type where
  soft_limit : Nat
  data : List (β × α)
deriving DecidableEq

namespace FairLimitedHeap

variable {β α : Type} [LinearOrder β] [LinearOrder α]

/-- The scan in `push`: `for index, item in enumerate(self._data): if index ==
0: comp_value = item[0]; elif item[0] != comp_value: break`.  Returns the
final value of `index`: the first position whose score differs from the score
at position 0, or — when no score differs — the last index `len - 1` (the
loop variable of an exhausted `enumerate`). -/
def scanIndex (d : List (β × α)) : Nat :=
  match d with
  | [] => 0
  | e :: rest => go e.1 rest 1
where
  go (comp_value : β) : List (β × α) → Nat → Nat
    | [], i => i - 1
    | f :: t, i => if f.1 ≠ comp_value then i else go comp_value t (i + 1)

/-- `for i in range(k): heapq.heappop(self._data)`. -/
def popN (d : List (β × α)) : Nat → List (β × α)
  | 0 => d
  | k + 1 =>
    match heappop d with
    | none => d
    | some (_, d2) => popN d2 k

/-- `FairLimitedHeap.push(item, value)`: `heappush` the `(value, item)` tuple;
return early if the size is within the soft limit; otherwise scan for the run
of entries whose score equals the score at the front of the array, and pop
that many entries when doing so leaves at least `soft_limit` entries. -/
def push (h : FairLimitedHeap β α) (item : α) (value : β) : FairLimitedHeap β α :=
  let d := heappush h.data (value, item)
  if d.length ≤ h.soft_limit then { h with data := d }
  else
    let index := scanIndex d
    if h.soft_limit ≤ d.length - index then { h with data := popN d index }
    else { h with data := d }

/-- `FairLimitedHeap.pop(also_return_score)`.  The true branch delegates to
`heapq.heappop(self._data)`.  The false branch is
`heapq.heappop(self._data[1])`: subscripting raises `IndexError` when the list
has fewer than two elements, and otherwise `heappop` receives a tuple and
raises `AttributeError` from `lastelt = heap.pop()`; either way the internal
list is never modified. -/
def pop (h : FairLimitedHeap β α) (also_return_score : Bool) :
    Except PyErr (PopResult β α) × FairLimitedHeap β α :=
  if also_return_score then
    match heappop h.data with
    | none => (Except.error PyErr.popFromEmptyList, h)
    | some (e, d) => (Except.ok (PopResult.pair e), { h with data := d })
  else
    if h.data.length < 2 then (Except.error PyErr.listIndexOutOfRange, h)
    else (Except.error PyErr.attributeError, h)

/-- The constructor loop `for item, value in initial: self.push(value, item)`:
each pair `(a, b)` of `initial` is unpacked as `item = a, value = b` and
pushed as `self.push(b, a)`, i.e. with `a` as the score and `b` as the stored
item.  (The preceding `assert isinstance(item, numbers.Number)` checks that
each pair's first component is a number; it holds by typing here, scores
being drawn from `β`.) -/
def initLoop (h : FairLimitedHeap β α) : List (β × α) → FairLimitedHeap β α
  | [] => h
  | p :: rest => initLoop (h.push p.2 p.1) rest

/-- `FairLimitedHeap.__init__(soft_limit, initial)`. -/
def init (soft_limit : Nat) (initial : List (β × α)) : FairLimitedHeap β α :=
  initLoop { soft_limit := soft_limit, data := [] } initial

/-- A heap built by constructing with `soft_limit` and no initial entries and
then pushing, in order, each `(item, score)` pair of `ps` via `push`. -/
def pushSeq (soft_limit : Nat) (ps : List (α × β)) : FairLimitedHeap β α :=
  ps.foldl (fun h p => h.push p.1 p.2) (init soft_limit [])

/-- Python's total `≤` on `(score, item)` tuples, used by `sorted`. -/
def ple (x y : β × α) : Prop := plt y x = false

instance : DecidableRel (ple (β := β) (α := α)) := fun _ _ =>
  inferInstanceAs (Decidable (_ = false))

/-- `sorted(self._data)`: the entries in ascending tuple order.  Python's
`sorted` is characterised (uniquely, the tuple order being total and
antisymmetric) by producing a sorted permutation of its input; insertion sort
realises that here. -/
def sortPairs (d : List (β × α)) : List (β × α) := List.insertionSort ple d

/-- `FairLimitedHeap.as_sorted_list(include_values)`: the sorted
`(score, item)` pairs, or just the items in that order.  The source builds the
result from `sorted(self._data)`, which copies; `self._data` is not touched. -/
def as_sorted_list (h : FairLimitedHeap β α) (include_values : Bool) :
    List (β × α) ⊕ List α :=
  if include_values then Sum.inl (sortPairs h.data)
  else Sum.inr ((sortPairs h.data).map Prod.snd)

end FairLimitedHeap

namespace NonNanFairLimitedHeap

variable {β α : Type} [LinearOrder β] [LinearOrder α]

/-- A Python float as seen by `NonNanFairLimitedHeap.push`: either NaN or an
ordered value (`β` may itself contain `±∞`, e.g. `WithBot (WithTop ℚ)`). -/
def isnan (v : Option β) : Bool := v.isNone

/-- `NonNanFairLimitedHeap.push(item, value)`: silently return when
`np.isnan(value)`; otherwise delegate to `FairLimitedHeap.push` unchanged. -/
def push (h : FairLimitedHeap β α) (item : α) (value : Option β) :
    FairLimitedHeap β α :=
  match value with
  | none => h
  | some v => FairLimitedHeap.push h item v

end NonNanFairLimitedHeap

/-! ## Heap-shape predicates

The binary-heap invariant of the `heapq` array representation, and the
intermediate "hole" invariants of the two sift loops. -/

namespace Heapq

variable {β α : Type} [LinearOrder β] [LinearOrder α]

/-- The `heapq` invariant: every non-root slot is not less than its parent
slot `(c - 1) / 2` under the tuple order. -/
def IsHeap (l : List (β × α)) : Prop :=
  ∀ c, (hc : c < l.length) → 0 < c → plt (l[c]) (l[(c - 1) / 2]) = false

instance {l : List (β × α)} : Decidable (IsHeap l) := by
  unfold IsHeap
  exact Nat.decidableBallLT _ _

/-- The heap invariant holds for every parent-child edge avoiding the hole at
`pos` (both as child and as parent). -/
def HeapExcept (l : List (β × α)) (pos : Nat) : Prop :=
  ∀ c, (hc : c < l.length) → 0 < c → c ≠ pos → (c - 1) / 2 ≠ pos →
    plt (l[c]) (l[(c - 1) / 2]) = false

/-- Both children of the hole at `pos` are not less than the pending item. -/
def ChildGeNew (l : List (β × α)) (pos : Nat) (x : β × α) : Prop :=
  ∀ c, (hc : c < l.length) → 0 < c → (c - 1) / 2 = pos → plt (l[c]) x = false

/-- Both children of the hole at `pos` are not less than the hole's parent
slot (vacuous at the root). -/
def ChildGeGrand (l : List (β × α)) (pos : Nat) : Prop :=
  ∀ hp : 0 < pos, ∀ c, (hc : c < l.length) → ∀ he : (c - 1) / 2 = pos,
    plt (l[c]) (l[(pos - 1) / 2]) = false

end Heapq

/-! ## The tuple order -/

namespace Heapq

variable {β α : Type} [LinearOrder β] [LinearOrder α]

theorem plt_iff {x y : β × α} :
    plt x y = true ↔ x.1 < y.1 ∨ (x.1 = y.1 ∧ x.2 < y.2) := by
  simp [plt]

theorem plt_irrefl (x : β × α) : plt x x = false := by
  simp [plt]

theorem plt_trans {x y z : β × α} (h1 : plt x y = true) (h2 : plt y z = true) :
    plt x z = true := by
  rw [plt_iff] at h1 h2 ⊢
  rcases h1 with h1 | ⟨e1, l1⟩ <;> rcases h2 with h2 | ⟨e2, l2⟩
  · exact Or.inl (lt_trans h1 h2)
  · exact Or.inl (by rw [← e2]; exact h1)
  · exact Or.inl (by rw [e1]; exact h2)
  · exact Or.inr ⟨e1.trans e2, lt_trans l1 l2⟩

theorem plt_asymm {x y : β × α} (h : plt x y = true) : plt y x = false := by
  cases hyx : plt y x with
  | false => rfl
  | true =>
    have := plt_trans h hyx
    rw [plt_irrefl] at this
    exact absurd this (by simp)

/-- Totality: two mutually not-less tuples are equal. -/
theorem plt_total {x y : β × α} (h1 : plt x y = false) (h2 : plt y x = false) :
    x = y := by
  rw [← Bool.not_eq_true, plt_iff] at h1 h2
  push_neg at h1 h2
  rcases lt_trichotomy x.1 y.1 with hs | hs | hs
  · exact absurd hs (not_lt.mpr h1.1)
  · rcases lt_trichotomy x.2 y.2 with hi | hi | hi
    · exact absurd hi (not_lt.mpr (h1.2 hs))
    · exact Prod.ext hs hi
    · exact absurd hi (not_lt.mpr (h2.2 hs.symm))
  · exact absurd hs (not_lt.mpr h2.1)

theorem plt_or_eq {x y : β × α} (h : plt x y = false) :
    plt y x = true ∨ x = y := by
  cases hyx : plt y x with
  | true => exact Or.inl rfl
  | false => exact Or.inr (plt_total h hyx)

/-- Transitivity of not-less (the tuple `≥` direction used for heap edges). -/
theorem pge_trans {a b c : β × α} (h1 : plt a b = false) (h2 : plt b c = false) :
    plt a c = false := by
  cases hac : plt a c with
  | false => rfl
  | true =>
    rcases plt_or_eq h1 with hba | hab
    · have := plt_trans hba hac
      rw [h2] at this
      exact absurd this (by simp)
    · rw [hab] at hac
      rw [hac] at h2
      exact h2

theorem plt_of_plt_of_pge {a b c : β × α} (h1 : plt a b = true)
    (h2 : plt c b = false) : plt a c = true := by
  cases hac : plt a c with
  | true => rfl
  | false =>
    rcases plt_or_eq hac with hca | hac'
    · have := plt_trans hca h1
      rw [h2] at this
      exact absurd this (by simp)
    · rw [← hac'] at h2
      rw [h1] at h2
      exact absurd h2 (by simp)

end Heapq

/-! ## List permutation helpers -/

section ListHelpers

variable {E : Type}

theorem cons_eraseIdx_perm :
    ∀ (l : List E) (i : Nat) (hi : i < l.length),
      List.Perm l (l[i] :: l.eraseIdx i)
  | x :: t, 0, _ => by simp
  | x :: t, j + 1, hi => by
    have hj : j < t.length := by simpa using hi
    have ih := cons_eraseIdx_perm t j hj
    have step1 : List.Perm (x :: t) (x :: t[j] :: t.eraseIdx j) := ih.cons x
    have step2 : List.Perm (x :: t[j] :: t.eraseIdx j) (t[j] :: x :: t.eraseIdx j) :=
      List.Perm.swap _ _ _
    simpa using step1.trans step2

theorem set_perm :
    ∀ (l : List E) (i : Nat) (a : E) (hi : i < l.length),
      List.Perm (l.set i a) (a :: l.eraseIdx i)
  | x :: t, 0, a, _ => by simp
  | x :: t, j + 1, a, hi => by
    have hj : j < t.length := by simpa using hi
    have ih := set_perm t j a hj
    have step1 : List.Perm (x :: t.set j a) (x :: a :: t.eraseIdx j) := ih.cons x
    have step2 : List.Perm (x :: a :: t.eraseIdx j) (a :: x :: t.eraseIdx j) :=
      List.Perm.swap _ _ _
    simpa using step1.trans step2

theorem set_eraseIdx_same :
    ∀ (l : List E) (i : Nat) (a : E), (l.set i a).eraseIdx i = l.eraseIdx i
  | [], _, _ => by simp
  | x :: t, 0, a => by simp
  | x :: t, j + 1, a => by
    simp [set_eraseIdx_same t j a]

/-- Writing the value found at `j` into slot `i` and then erasing slot `j`
permutes to simply erasing slot `i`. -/
theorem set_eraseIdx_perm (l : List E) (i j : Nat) (hij : i ≠ j)
    (hi : i < l.length) (hj : j < l.length) :
    List.Perm ((l.set i l[j]).eraseIdx j) (l.eraseIdx i) := by
  have hj2 : j < (l.set i l[j]).length := by simpa using hj
  have h1 := cons_eraseIdx_perm (l.set i l[j]) j hj2
  have hval : (l.set i l[j])[j] = l[j] := List.getElem_set_ne hij hj2
  rw [hval] at h1
  have h2 := set_perm l i (l[j]) hi
  exact (h1.symm.trans h2).cons_inv

theorem eraseIdx_append_last :
    ∀ (l : List E) (x : E), (l ++ [x]).eraseIdx l.length = l
  | [], x => by simp
  | y :: t, x => by
    simp [eraseIdx_append_last t x]

theorem getElem_idx_congr (l : List E) {i j : Nat} (h : i = j)
    (hi : i < l.length) (hj : j < l.length) : l[i] = l[j] := by
  subst h
  rfl

theorem getElem_list_congr {l1 l2 : List E} (h : l1 = l2) {i : Nat}
    (h1 : i < l1.length) (h2 : i < l2.length) : l1[i] = l2[i] := by
  subst h
  rfl

end ListHelpers

section PltCongr

variable {β α : Type} [LinearOrder β] [LinearOrder α]

theorem plt_false_right_congr {a b b2 : β × α} (h : b = b2)
    (hab : Heapq.plt a b = false) : Heapq.plt a b2 = false := by
  rw [← h]
  exact hab

theorem plt_false_left_congr {a a2 b : β × α} (h : a = a2)
    (hab : Heapq.plt a b = false) : Heapq.plt a2 b = false := by
  rw [← h]
  exact hab

end PltCongr

/-! ## Correctness of the sift loops -/

namespace Heapq

variable {β α : Type} [LinearOrder β] [LinearOrder α]

/-- Writing the pending item into the hole yields a heap, provided all edges
avoiding the hole are good, both children of the hole are not less than the
item, and the item is not less than the hole's parent. -/
theorem place_hole_isHeap (l : List (β × α)) (pos : Nat) (x : β × α)
    (hp : pos < l.length) (hA : HeapExcept l pos) (hB : ChildGeNew l pos x)
    (hroot : 0 < pos → plt x (l[(pos - 1) / 2]) = false) :
    IsHeap (l.set pos x) := by
  intro c hc h0
  have hc' : c < l.length := by simpa using hc
  have hpar' : (c - 1) / 2 < l.length := by omega
  simp only [List.getElem_set]
  by_cases h1 : pos = c
  · subst h1
    have hne2 : ¬ pos = (pos - 1) / 2 := by omega
    rw [if_pos rfl, if_neg hne2]
    exact hroot h0
  · rw [if_neg h1]
    by_cases h2 : pos = (c - 1) / 2
    · rw [if_pos h2]
      exact hB c hc' h0 h2.symm
    · rw [if_neg h2]
      exact hA c hc' h0 (fun e => h1 e.symm) (fun e => h2 e.symm)

/-- Main specification of the bubble-up loop `_siftdown` (with `startpos = 0`,
as at every call site): given the hole invariants, the result is a heap, is a
permutation of the pending item joined with the array minus the hole, and has
unchanged length. -/
theorem siftdownF_spec :
    ∀ (fuel : Nat) (l : List (β × α)) (pos : Nat) (x : β × α),
      pos ≤ fuel → ∀ hp : pos < l.length,
      HeapExcept l pos → ChildGeNew l pos x → ChildGeGrand l pos →
      IsHeap (siftdownF fuel l 0 pos x) ∧
      List.Perm (siftdownF fuel l 0 pos x) (x :: l.eraseIdx pos) ∧
      (siftdownF fuel l 0 pos x).length = l.length := by
  intro fuel
  induction fuel with
  | zero =>
    intro l pos x hf hp hA hB _hC
    have hpos : pos = 0 := by omega
    subst hpos
    simp only [siftdownF]
    exact ⟨place_hole_isHeap l 0 x hp hA hB (fun h0 => absurd h0 (by omega)),
      set_perm l 0 x hp, by simp⟩
  | succ fuel ih =>
    intro l pos x hf hp hA hB hC
    by_cases hpos : 0 < pos
    · have hppl : (pos - 1) / 2 < l.length := by omega
      have hgd : l.getD ((pos - 1) / 2) x = l[(pos - 1) / 2] :=
        List.getD_eq_getElem l x hppl
      simp only [siftdownF, parentIdx, if_pos hpos]
      rw [hgd]
      by_cases hlt : plt x (l[(pos - 1) / 2]) = true
      · rw [if_pos hlt]
        have hA2 : HeapExcept (l.set pos (l[(pos - 1) / 2])) ((pos - 1) / 2) := by
          intro c hc h0 hcpp hparcpp
          have hc' : c < l.length := by simpa using hc
          simp only [List.getElem_set]
          by_cases e1 : pos = c
          · exact absurd (by omega : (c - 1) / 2 = (pos - 1) / 2) hparcpp
          · rw [if_neg e1]
            by_cases e2 : pos = (c - 1) / 2
            · rw [if_pos e2]
              exact hC hpos c hc' e2.symm
            · rw [if_neg e2]
              exact hA c hc' h0 (fun e => e1 e.symm) (fun e => e2 e.symm)
        have hB2 : ChildGeNew (l.set pos (l[(pos - 1) / 2])) ((pos - 1) / 2) x := by
          intro c hc h0 he
          have hc' : c < l.length := by simpa using hc
          simp only [List.getElem_set]
          by_cases e1 : pos = c
          · rw [if_pos e1]
            exact plt_asymm hlt
          · rw [if_neg e1]
            have hpar_ne : ¬ (c - 1) / 2 = pos := by omega
            have hge := hA c hc' h0 (fun e => e1 e.symm) hpar_ne
            have hge2 : plt (l[c]) (l[(pos - 1) / 2]) = false := by
              rw [← getElem_idx_congr l he (by omega) hppl]
              exact hge
            exact plt_asymm (plt_of_plt_of_pge hlt hge2)
        have hC2 : ChildGeGrand (l.set pos (l[(pos - 1) / 2])) ((pos - 1) / 2) := by
          intro hpp0 c hc he
          have hc' : c < l.length := by simpa using hc
          have h0c : 0 < c := by omega
          simp only [List.getElem_set]
          have hgp_ne : ¬ pos = ((pos - 1) / 2 - 1) / 2 := by omega
          rw [if_neg hgp_ne]
          by_cases e1 : pos = c
          · rw [if_pos e1]
            exact hA ((pos - 1) / 2) hppl hpp0 (by omega) (by omega)
          · rw [if_neg e1]
            have hpar_ne : ¬ (c - 1) / 2 = pos := by omega
            have h1 := hA c hc' h0c (fun e => e1 e.symm) hpar_ne
            have h1b : plt (l[c]) (l[(pos - 1) / 2]) = false := by
              rw [← getElem_idx_congr l he (by omega) hppl]
              exact h1
            have h2 := hA ((pos - 1) / 2) hppl hpp0 (by omega) (by omega)
            exact pge_trans h1b h2
        obtain ⟨hH, hP, hL⟩ :=
          ih (l.set pos (l[(pos - 1) / 2])) ((pos - 1) / 2) x (by omega)
            (by simpa using hppl) hA2 hB2 hC2
        refine ⟨hH, ?_, by simpa using hL⟩
        refine hP.trans ?_
        exact (set_eraseIdx_perm l pos ((pos - 1) / 2) (by omega) hp hppl).cons x
      · rw [if_neg hlt]
        exact ⟨place_hole_isHeap l pos x hp hA hB
          (fun _ => by simpa using hlt), set_perm l pos x hp, by simp⟩
    · have hp0 : pos = 0 := by omega
      subst hp0
      simp only [siftdownF, if_neg (lt_irrefl 0)]
      exact ⟨place_hole_isHeap l 0 x hp hA hB (fun h0 => absurd h0 (by omega)),
        set_perm l 0 x hp, by simp⟩

/-- Moving the smaller child of the hole up into the hole preserves the
descent invariants of `_siftup`, with the hole now at that child. -/
theorem descend_invariants (l : List (β × α)) (pos cp : Nat) (hp : pos < l.length)
    (hcp_lt : cp < l.length) (hcp0 : 0 < cp) (hcp_child : (cp - 1) / 2 = pos)
    (hsib : ∀ s, ∀ hs : s < l.length, 0 < s → (s - 1) / 2 = pos → s ≠ cp →
      plt (l[s]) (l[cp]) = false)
    (hA : HeapExcept l pos) (hC : ChildGeGrand l pos) :
    HeapExcept (l.set pos (l[cp])) cp ∧ ChildGeGrand (l.set pos (l[cp])) cp := by
  have hpos_cp : pos < cp := by omega
  constructor
  · intro c hc h0 hccp hpcp2
    have hc' : c < l.length := by simpa using hc
    simp only [List.getElem_set]
    by_cases e1 : pos = c
    · have h0p : 0 < pos := by omega
      rw [if_pos e1, if_neg (show ¬ pos = (c - 1) / 2 by omega)]
      have hgeq : (l[(pos - 1) / 2] : β × α) = l[(c - 1) / 2] :=
        getElem_idx_congr l (by omega) (by omega) (by omega)
      exact plt_false_right_congr hgeq (hC h0p cp hcp_lt hcp_child)
    · rw [if_neg e1]
      by_cases e2 : pos = (c - 1) / 2
      · rw [if_pos e2]
        exact hsib c hc' h0 e2.symm hccp
      · rw [if_neg e2]
        exact hA c hc' h0 (fun e => e1 e.symm) (fun e => e2 e.symm)
  · intro hcp0 c hc he
    have hc' : c < l.length := by simpa using hc
    have h0c : 0 < c := by omega
    have hcne : ¬ pos = c := by omega
    simp only [List.getElem_set]
    rw [if_neg hcne, if_pos hcp_child.symm]
    have h1 := hA c hc' h0c (by omega) (by omega)
    have hgeq : (l[(c - 1) / 2] : β × α) = l[cp] :=
      getElem_idx_congr l he (by omega) hcp_lt
    exact plt_false_right_congr hgeq h1

/-- Main specification of `_siftup` (with `startpos = 0`, as `heappop` calls
it): given the descent invariants, the result is a heap, permutes to the
pending item joined with the array minus the hole, and has unchanged
length. -/
theorem siftupF_spec :
    ∀ (fuel : Nat) (l : List (β × α)) (pos : Nat) (x : β × α),
      l.length - pos ≤ fuel → ∀ hp : pos < l.length,
      HeapExcept l pos → ChildGeGrand l pos →
      IsHeap (siftupF fuel l 0 pos x) ∧
      List.Perm (siftupF fuel l 0 pos x) (x :: l.eraseIdx pos) ∧
      (siftupF fuel l 0 pos x).length = l.length := by
  intro fuel
  induction fuel with
  | zero =>
    intro l pos x hf hp hA hC
    exact absurd hp (by omega)
  | succ fuel ih =>
    intro l pos x hf hp hA hC
    simp only [siftupF]
    by_cases hchild : 2 * pos + 1 < l.length
    · rw [if_pos hchild]
      have main : ∀ cp : Nat, ∀ hcp_lt : cp < l.length, 0 < cp → (cp - 1) / 2 = pos →
          (∀ s, ∀ hs : s < l.length, 0 < s → (s - 1) / 2 = pos → s ≠ cp →
            plt (l[s]) (l[cp]) = false) →
          IsHeap (siftupF fuel (l.set pos (l.getD cp x)) 0 cp x) ∧
          List.Perm (siftupF fuel (l.set pos (l.getD cp x)) 0 cp x)
            (x :: l.eraseIdx pos) ∧
          (siftupF fuel (l.set pos (l.getD cp x)) 0 cp x).length = l.length := by
        intro cp hcp_lt hcp0 hcp_child hsib
        rw [List.getD_eq_getElem l x hcp_lt]
        obtain ⟨hA2, hC2⟩ :=
          descend_invariants l pos cp hp hcp_lt hcp0 hcp_child hsib hA hC
        obtain ⟨h1, h2, h3⟩ :=
          ih (l.set pos (l[cp])) cp x (by simp only [List.length_set]; omega)
            (by simpa using hcp_lt) hA2 hC2
        refine ⟨h1, ?_, by simpa using h3⟩
        exact h2.trans ((set_eraseIdx_perm l pos cp (by omega) hp hcp_lt).cons x)
      split
      · next hcond =>
          rw [Bool.and_eq_true, decide_eq_true_eq, Bool.not_eq_true'] at hcond
          obtain ⟨hr, hnlt⟩ := hcond
          rw [List.getD_eq_getElem l x hchild, List.getD_eq_getElem l x hr] at hnlt
          apply main (2 * pos + 1 + 1) hr (by omega) (by omega)
          intro s hs h0s hse hsne
          have hseq : s = 2 * pos + 1 := by omega
          subst hseq
          exact hnlt
      · next hcond =>
          apply main (2 * pos + 1) hchild (by omega) (by omega)
          intro s hs h0s hse hsne
          have hseq : s = 2 * pos + 1 + 1 := by omega
          subst hseq
          have h2 : (!plt (l.getD (2 * pos + 1) x) (l.getD (2 * pos + 1 + 1) x)) ≠ true :=
            fun hb => hcond (by rw [Bool.and_eq_true]; exact ⟨decide_eq_true hs, hb⟩)
          have h3 : plt (l.getD (2 * pos + 1) x) (l.getD (2 * pos + 1 + 1) x) = true := by
            cases hv : plt (l.getD (2 * pos + 1) x) (l.getD (2 * pos + 1 + 1) x) with
            | true => rfl
            | false => exact absurd (by rw [hv]; rfl) h2
          rw [List.getD_eq_getElem l x hchild, List.getD_eq_getElem l x hs] at h3
          exact plt_asymm h3
    · rw [if_neg hchild]
      simp only [siftdown]
      have hps : pos < (l.set pos x).length := by simpa using hp
      have hA2 : HeapExcept (l.set pos x) pos := by
        intro c hc h0 hcp hpcp
        have hc' : c < l.length := by simpa using hc
        simp only [List.getElem_set]
        rw [if_neg (fun e => hcp e.symm), if_neg (fun e => hpcp e.symm)]
        exact hA c hc' h0 hcp hpcp
      have hB2 : ChildGeNew (l.set pos x) pos x := by
        intro c hc h0 he
        have hc' : c < l.length := by simpa using hc
        exact absurd hc' (by omega)
      have hC2 : ChildGeGrand (l.set pos x) pos := by
        intro hp0 c hc he
        have hc' : c < l.length := by simpa using hc
        exact absurd hc' (by omega)
      obtain ⟨h1, h2, h3⟩ :=
        siftdownF_spec pos (l.set pos x) pos x (le_refl pos) hps hA2 hB2 hC2
      refine ⟨h1, ?_, by simpa using h3⟩
      rw [set_eraseIdx_same] at h2
      exact h2

/-! ## Length facts (independent of the heap invariant) -/

theorem siftdownF_length :
    ∀ (fuel : Nat) (l : List (β × α)) (s p : Nat) (x : β × α),
      (siftdownF fuel l s p x).length = l.length := by
  intro fuel
  induction fuel with
  | zero => intro l s p x; simp [siftdownF]
  | succ fuel ih =>
    intro l s p x
    simp only [siftdownF]
    split
    · split
      · rw [ih]; simp
      · simp
    · simp

theorem siftdown_length (l : List (β × α)) (s p : Nat) (x : β × α) :
    (siftdown l s p x).length = l.length := siftdownF_length p l s p x

theorem siftupF_length :
    ∀ (fuel : Nat) (l : List (β × α)) (s p : Nat) (x : β × α),
      (siftupF fuel l s p x).length = l.length := by
  intro fuel
  induction fuel with
  | zero => intro l s p x; simp [siftupF, siftdown_length]
  | succ fuel ih =>
    intro l s p x
    simp only [siftupF]
    split
    · rw [ih]; simp
    · rw [siftdown_length]; simp

theorem siftup_length (l : List (β × α)) (p : Nat) (x : β × α) :
    (siftup l p x).length = l.length := siftupF_length l.length l p p x

theorem heappush_length (l : List (β × α)) (x : β × α) :
    (heappush l x).length = l.length + 1 := by
  simp [heappush, siftdown_length]

/-- `heappop` on a nonempty list: always `some`, returns the front of the
array, and the remainder is one shorter.  (No heap invariant needed.) -/
theorem heappop_shape (l : List (β × α)) (hne : l ≠ []) (h0 : 0 < l.length) :
    ∃ l2, heappop l = some (l[0], l2) ∧ l2.length = l.length - 1 := by
  have hz := List.getLast?_eq_getLast l hne
  cases hdc : l.dropLast with
  | nil =>
    have hl1 : l.length = 1 := by
      have := List.length_dropLast l
      rw [hdc] at this
      simp at this
      omega
    have hl0 : l[0] = l.getLast hne := by
      rw [List.getLast_eq_getElem l hne]
      exact getElem_idx_congr l (by omega) h0 (by omega)
    refine ⟨[], ?_, by simp [hl1]⟩
    rw [heappop, hz, hdc]
    simp [hl0]
  | cons d0 t =>
    have hd : l.dropLast ≠ [] := by rw [hdc]; simp
    have hd0 : 0 < l.dropLast.length := List.length_pos.mpr hd
    have hdlen : l.dropLast.length = l.length - 1 := List.length_dropLast l
    have htlen : t.length + 1 = l.length - 1 := by
      rw [hdc] at hdlen
      simpa using hdlen
    have hl0 : l[0] = d0 := by
      have e1 := List.getElem_dropLast l 0 hd0
      have e2 : (l.dropLast[0] : β × α) = d0 := by
        rw [getElem_list_congr hdc hd0 (by simp)]
        simp
      rw [← e1, e2]
    refine ⟨siftup ((d0 :: t).set 0 (l.getLast hne)) 0 (l.getLast hne), ?_, ?_⟩
    · rw [heappop, hz, hdc]
      simp [hl0]
    · rw [siftup_length]
      simp only [List.length_set]
      simpa using htlen

/-- Full correctness of `heappop` on a valid heap: it removes and returns the
root, the remainder is a heap, and the contents are preserved. -/
theorem heappop_correct (l : List (β × α)) (hl : IsHeap l) (hne : l ≠ [])
    (h0 : 0 < l.length) :
    ∃ l2, heappop l = some (l[0], l2) ∧ IsHeap l2 ∧
      List.Perm l (l[0] :: l2) ∧ l2.length = l.length - 1 := by
  have hz := List.getLast?_eq_getLast l hne
  cases hdc : l.dropLast with
  | nil =>
    have hl1 : l.length = 1 := by
      have := List.length_dropLast l
      rw [hdc] at this
      simp at this
      omega
    have hl0 : l[0] = l.getLast hne := by
      rw [List.getLast_eq_getElem l hne]
      exact getElem_idx_congr l (by omega) h0 (by omega)
    refine ⟨[], ?_, ?_, ?_, by simp [hl1]⟩
    · rw [heappop, hz, hdc]
      simp [hl0]
    · intro c hc hc0
      simp at hc
    · have hsing : l = [l[0]] := by
        apply List.ext_getElem (by simpa using hl1)
        intro i h1 h2
        have hi0 : i = 0 := by simpa using h2
        subst hi0
        simp
      conv_lhs => rw [hsing]
  | cons d0 t =>
    have hd : l.dropLast ≠ [] := by rw [hdc]; simp
    have hd0 : 0 < l.dropLast.length := List.length_pos.mpr hd
    have hdlen : l.dropLast.length = l.length - 1 := List.length_dropLast l
    have htlen : t.length + 1 = l.length - 1 := by
      rw [hdc] at hdlen
      simpa using hdlen
    have hl0 : l[0] = d0 := by
      have e1 := List.getElem_dropLast l 0 hd0
      have e2 : (l.dropLast[0] : β × α) = d0 := by
        rw [getElem_list_congr hdc hd0 (by simp)]
        simp
      rw [← e1, e2]
    have hlshape : l = d0 :: (t ++ [l.getLast hne]) := by
      have happ := List.dropLast_append_getLast (l := l) hne
      rw [hdc] at happ
      exact happ.symm
    have hdt_len : l.dropLast.length = t.length + 1 := by rw [hdc]; simp
    have hA : HeapExcept ((d0 :: t).set 0 (l.getLast hne)) 0 := by
      intro c hc hc0 hcp hpcp
      have hpc0 : 0 < (c - 1) / 2 := Nat.pos_of_ne_zero (fun e => hpcp e)
      have hc2 : c < t.length + 1 := by simpa using hc
      have hcl : c < l.length := by omega
      have hpcl : (c - 1) / 2 < l.length := by omega
      have h1 := hl c hcl hc0
      have ec : (((d0 :: t).set 0 (l.getLast hne))[c] : β × α) = l[c] := by
        rw [List.getElem_set_ne (fun e => hcp e.symm) (by simpa using hc2)]
        rw [getElem_list_congr hdc.symm (by simpa using hc2) (by omega)]
        exact List.getElem_dropLast l c (by omega)
      have ep : (((d0 :: t).set 0 (l.getLast hne))[(c - 1) / 2] : β × α)
          = l[(c - 1) / 2] := by
        rw [List.getElem_set_ne (fun e => hpcp e.symm) (by simp; omega)]
        rw [getElem_list_congr hdc.symm (by simp; omega) (by omega)]
        exact List.getElem_dropLast l ((c - 1) / 2) (by omega)
      exact plt_false_right_congr ep.symm (plt_false_left_congr ec.symm h1)
    have hC : ChildGeGrand ((d0 :: t).set 0 (l.getLast hne)) 0 := by
      intro hp0
      exact absurd hp0 (by omega)
    obtain ⟨h1, h2, h3⟩ :=
      siftupF_spec ((d0 :: t).set 0 (l.getLast hne)).length
        ((d0 :: t).set 0 (l.getLast hne)) 0 (l.getLast hne) (by omega)
        (by simp) hA hC
    refine ⟨siftupF ((d0 :: t).set 0 (l.getLast hne)).length
      ((d0 :: t).set 0 (l.getLast hne)) 0 0 (l.getLast hne), ?_, h1, ?_, ?_⟩
    · rw [heappop, hz, hdc]
      simp [hl0, siftup]
    · have herase : (((d0 :: t).set 0 (l.getLast hne)).eraseIdx 0) = t := rfl
      rw [herase] at h2
      rw [hl0]
      conv_lhs => rw [hlshape]
      refine List.Perm.cons d0 ?_
      have hmid : List.Perm (t ++ [l.getLast hne]) (l.getLast hne :: t) := by
        simpa using
          (@List.perm_middle (β × α) (l.getLast hne) t [])
      exact hmid.trans h2.symm
    · rw [h3]
      simp only [List.length_set]
      simpa using htlen

/-- In a heap, no entry is less than the entry at the front of the array. -/
theorem isHeap_le_root (l : List (β × α)) (hl : IsHeap l) :
    ∀ c, ∀ hc : c < l.length, ∀ h0 : 0 < l.length, plt (l[c]) (l[0]) = false := by
  intro c
  induction c using Nat.strong_induction_on with
  | _ c ih =>
    intro hc h0
    rcases Nat.eq_zero_or_pos c with hc0 | hc0
    · subst hc0
      exact plt_irrefl _
    · have hpar := hl c hc hc0
      have hrec := ih ((c - 1) / 2) (by omega) (by omega) h0
      exact pge_trans hpar hrec

theorem isHeap_mem_le_root (l : List (β × α)) (hl : IsHeap l) (e : β × α)
    (he : e ∈ l) (h0 : 0 < l.length) : plt e (l[0]) = false := by
  obtain ⟨i, hi, rfl⟩ := List.mem_iff_getElem.mp he
  exact isHeap_le_root l hl i hi h0

/-- Not being less than an entry bounds the score from below. -/
theorem score_le_of_plt_false {e r : β × α} (h : plt e r = false) : r.1 ≤ e.1 := by
  rw [← Bool.not_eq_true, plt_iff] at h
  push_neg at h
  exact h.1

/-- `heappush` on a valid heap: the result is a valid heap whose contents are
the old contents plus the new entry. -/
theorem heappush_correct (l : List (β × α)) (x : β × α) (hl : IsHeap l) :
    IsHeap (heappush l x) ∧ List.Perm (heappush l x) (x :: l) := by
  have hA : HeapExcept (l ++ [x]) l.length := by
    intro c hc hc0 hcp hpcp
    have hc2 : c < l.length + 1 := by simpa using hc
    have hc3 : c < l.length := by omega
    have hpc3 : (c - 1) / 2 < l.length := by omega
    have ec : ((l ++ [x])[c] : β × α) = l[c] := List.getElem_append_left hc3
    have ep : ((l ++ [x])[(c - 1) / 2] : β × α) = l[(c - 1) / 2] :=
      List.getElem_append_left hpc3
    exact plt_false_right_congr ep.symm (plt_false_left_congr ec.symm (hl c hc3 hc0))
  have hB : ChildGeNew (l ++ [x]) l.length x := by
    intro c hc hc0 he
    have hc2 : c < l.length + 1 := by simpa using hc
    exact absurd he (by omega)
  have hC : ChildGeGrand (l ++ [x]) l.length := by
    intro hp0 c hc he
    have hc2 : c < l.length + 1 := by simpa using hc
    exact absurd he (by omega)
  obtain ⟨h1, h2, h3⟩ :=
    siftdownF_spec l.length (l ++ [x]) l.length x (le_refl _) (by simp) hA hB hC
  refine ⟨h1, ?_⟩
  rw [eraseIdx_append_last] at h2
  exact h2

end Heapq

/-! ## Eviction: `popN` removes the `k` least entries -/

namespace FairLimitedHeap

variable {β α : Type} [LinearOrder β] [LinearOrder α]

/-- Popping `k` times from a valid heap removes the `k` least entries: there
is a removed list `rem` of length `k` such that the old contents permute to
`rem` together with the remainder, the remainder is a valid heap, and no
remaining entry is less than any removed entry. -/
theorem popN_spec :
    ∀ (k : Nat) (l : List (β × α)), IsHeap l → k ≤ l.length →
      ∃ rem : List (β × α), rem.length = k ∧
        List.Perm l (rem ++ popN l k) ∧ IsHeap (popN l k) ∧
        (popN l k).length = l.length - k ∧
        (∀ e ∈ rem, ∀ f ∈ popN l k, plt f e = false) := by
  intro k
  induction k with
  | zero =>
    intro l hl hk
    exact ⟨[], rfl, by simp [popN], hl, by simp [popN], by simp⟩
  | succ k ih =>
    intro l hl hk
    have hne : l ≠ [] := by
      intro e
      subst e
      simp at hk
    have h0 : 0 < l.length := List.length_pos.mpr hne
    obtain ⟨l2, he, hh2, hperm, hlen⟩ := Heapq.heappop_correct l hl hne h0
    have hpop : popN l (k + 1) = popN l2 k := by
      simp only [popN, he]
    obtain ⟨rem, hrl, hrp, hrh, hrlen, hord⟩ := ih l2 hh2 (by omega)
    refine ⟨l[0] :: rem, by simp [hrl], ?_, by rw [hpop]; exact hrh,
      by rw [hpop, hrlen]; omega, ?_⟩
    · rw [hpop]
      exact hperm.trans (hrp.cons _)
    · intro e hemem f hf
      rw [hpop] at hf
      rcases List.mem_cons.mp hemem with he0 | herem
      · subst he0
        have hf2 : f ∈ l2 := (hrp.mem_iff).mpr (List.mem_append.mpr (Or.inr hf))
        have hfl : f ∈ l := (hperm.mem_iff).mpr (List.mem_cons.mpr (Or.inr hf2))
        exact Heapq.isHeap_mem_le_root l hl f hfl h0
      · exact hord e herem f hf

/-- A bounded prefix of positions all satisfying `p` forces `countP p` to be
at least the prefix length. -/
theorem countP_ge_of_prefixAll :
    ∀ (p : β × α → Bool) (d : List (β × α)) (k : Nat), k ≤ d.length →
      (∀ i, ∀ hi : i < d.length, i < k → p (d[i]) = true) →
      k ≤ d.countP p := by
  intro p d
  induction d with
  | nil =>
    intro k hk hall
    simpa using hk
  | cons e t ih =>
    intro k hk hall
    cases k with
    | zero => simp
    | succ m =>
      have hpe : p e = true := hall 0 (by simp) (by omega)
      have hrec := ih m (by simpa using hk)
        (fun i hi hik => by
          have := hall (i + 1) (by simpa using hi) (by omega)
          simpa using this)
      simp [List.countP_cons, hpe]
      omega

/-- A member refuting the predicate makes `countP` strictly less than the
length. -/
theorem countP_lt_length_of_mem {p : β × α → Bool} {l : List (β × α)}
    {e : β × α} (he : e ∈ l) (hpe : p e = false) : l.countP p < l.length := by
  induction l with
  | nil => simp at he
  | cons x t ih =>
    rcases List.mem_cons.mp he with hx | ht
    · subst hx
      have := List.countP_le_length (p := p) (l := t)
      simp [List.countP_cons, hpe]
      omega
    · have := ih ht
      simp only [List.countP_cons, List.length_cons]
      split <;> omega

/-! ## The tie scan -/

theorem scanIndex_go_le :
    ∀ (comp : β) (t : List (β × α)) (i : Nat), 1 ≤ i →
      scanIndex.go comp t i ≤ i + t.length - 1 := by
  intro comp t
  induction t with
  | nil =>
    intro i h1
    simp [scanIndex.go]
  | cons f s ih =>
    intro i h1
    simp only [scanIndex.go]
    split
    · simp only [List.length_cons]
      omega
    · have := ih (i + 1) (by omega)
      simp only [List.length_cons]
      omega

/-- The scan never reaches the length of a nonempty array: `enumerate` stops
at the last index. -/
theorem scanIndex_lt_length (d : List (β × α)) (hne : d ≠ []) :
    scanIndex d < d.length := by
  cases d with
  | nil => exact absurd rfl hne
  | cons e rest =>
    have := scanIndex_go_le e.1 rest 1 (le_refl 1)
    simp only [scanIndex, List.length_cons]
    omega

theorem scanIndex_go_eq :
    ∀ (comp : β) (t : List (β × α)) (i k : Nat),
      1 ≤ i → i ≤ k → ∀ hk : k - i < t.length,
      (∀ j, ∀ hj : j < t.length, i + j < k → (t[j]).1 = comp) →
      (t[k - i]).1 ≠ comp →
      scanIndex.go comp t i = k := by
  intro comp t
  induction t with
  | nil =>
    intro i k h1 h2 hk
    simp at hk
  | cons f s ih =>
    intro i k h1 h2 hk hall hbreak
    simp only [scanIndex.go]
    by_cases hf : f.1 ≠ comp
    · rw [if_pos hf]
      by_contra hik
      have h00 := hall 0 (by simp) (by omega)
      simp at h00
      exact hf h00
    · rw [if_neg hf]
      push_neg at hf
      have hne2 : i ≠ k := by
        intro e
        have h0eq : k - i = 0 := by omega
        have hv : (((f :: s)[k - i]) : β × α) = f := by
          rw [getElem_idx_congr (f :: s) h0eq hk (by simp)]
          simp
        rw [hv] at hbreak
        exact hbreak hf
      apply ih (i + 1) k (by omega) (by omega) (by simp at hk ⊢; omega)
      · intro j hj hcond
        have := hall (j + 1) (by simp; omega) (by omega)
        simpa using this
      · have hidx : k - i = (k - (i + 1)) + 1 := by omega
        have hks : k - (i + 1) < s.length := by
          simp only [List.length_cons] at hk
          omega
        have hv : (((f :: s)[k - i]) : β × α) = s[k - (i + 1)] := by
          rw [getElem_idx_congr (f :: s) hidx hk (by simp only [List.length_cons]; omega)]
          simp
        rw [hv] at hbreak
        exact hbreak

/-- The scan finds the run-length of the leading tie block: if positions
below `k` share the front score and position `k` differs, the loop stops with
`index = k`. -/
theorem scanIndex_eq (d : List (β × α)) (k : Nat) (hk : k < d.length)
    (hk1 : 1 ≤ k)
    (hall : ∀ i, ∀ hi : i < d.length, i < k → (d[i]).1 = (d[0]).1)
    (hbreak : (d[k]).1 ≠ (d[0]).1) :
    scanIndex d = k := by
  cases d with
  | nil => simp at hk
  | cons e rest =>
    simp only [scanIndex]
    apply scanIndex_go_eq e.1 rest 1 k (le_refl 1) hk1
      (by simp at hk ⊢; omega)
    · intro j hj hcond
      have := hall (j + 1) (by simp; omega) (by omega)
      simpa using this
    · have hkr : k - 1 < rest.length := by
        simp only [List.length_cons] at hk
        omega
      have hv : (((e :: rest)[k]) : β × α) = rest[k - 1] := by
        have hidx : k = (k - 1) + 1 := by omega
        rw [getElem_idx_congr (e :: rest) hidx hk (by simp only [List.length_cons]; omega)]
        simp
      have hb2 := hbreak
      rw [hv] at hb2
      simpa using hb2

/-! ## `push` and `pop` at the class level -/

/-- `push` preserves the heap invariant of the internal array. -/
theorem push_isHeap (h : FairLimitedHeap β α) (item : α) (value : β)
    (hh : IsHeap h.data) : IsHeap (h.push item value).data := by
  obtain ⟨hheap, _⟩ := Heapq.heappush_correct h.data (value, item) hh
  have hlen := Heapq.heappush_length h.data (value, item)
  have hne : heappush h.data (value, item) ≠ [] := by
    intro e
    rw [e] at hlen
    simp at hlen
  simp only [push]
  split
  · exact hheap
  · split
    · obtain ⟨rem, _, _, hres, _, _⟩ :=
        popN_spec (scanIndex (heappush h.data (value, item)))
          (heappush h.data (value, item)) hheap
          (le_of_lt (scanIndex_lt_length _ hne))
      exact hres
    · exact hheap

/-- `push` never changes the soft limit. -/
theorem push_soft_limit (h : FairLimitedHeap β α) (item : α) (value : β) :
    (h.push item value).soft_limit = h.soft_limit := by
  simp only [push]
  split
  · rfl
  · split
    · rfl
    · rfl

/-- Folding any sequence of pushes from the empty heap keeps the heap
invariant. -/
theorem foldl_push_isHeap (ps : List (α × β)) :
    ∀ s : FairLimitedHeap β α, IsHeap s.data →
      IsHeap ((ps.foldl (fun h p => h.push p.1 p.2) s).data) := by
  induction ps with
  | nil => intro s hs; exact hs
  | cons p t ih =>
    intro s hs
    exact ih (s.push p.1 p.2) (push_isHeap s p.1 p.2 hs)

/-- `pop(True)` on a nonempty valid heap returns the front `(score, item)`
pair, and the remaining state is the heap minus that entry. -/
theorem pop_true_eq (s : FairLimitedHeap β α) (hh : IsHeap s.data)
    (hne : s.data ≠ []) (h0 : 0 < s.data.length) :
    ∃ d2, s.pop true =
        (Except.ok (PopResult.pair (s.data[0])),
          { soft_limit := s.soft_limit, data := d2 }) ∧
      IsHeap d2 ∧ List.Perm s.data (s.data[0] :: d2) ∧
      d2.length = s.data.length - 1 := by
  obtain ⟨l2, he, hh2, hperm, hlen⟩ := Heapq.heappop_correct s.data hh hne h0
  refine ⟨l2, ?_, hh2, hperm, hlen⟩
  simp [pop, he]

/-- The eviction loop shortens the array by exactly the pop count (no heap
invariant needed). -/
theorem popN_length :
    ∀ (k : Nat) (l : List (β × α)), k ≤ l.length →
      (popN l k).length = l.length - k := by
  intro k
  induction k with
  | zero =>
    intro l hk
    simp [popN]
  | succ k ih =>
    intro l hk
    have hne : l ≠ [] := by
      intro e
      subst e
      simp at hk
    have h0 : 0 < l.length := List.length_pos.mpr hne
    obtain ⟨l2, he, hlen⟩ := Heapq.heappop_shape l hne h0
    simp only [popN, he]
    rw [ih l2 (by omega)]
    omega

end FairLimitedHeap

/-! ## The claims -/

section Claims

variable {β α : Type} [LinearOrder β] [LinearOrder α]

/-- C1 (counterexample): the claim says that when the eviction fires, exactly
the entries at array positions `0..k-1` are removed.  On the reachable heap
below (`soft_limit = 3`, six pushes), the post-insertion array is
`[(1,1),(1,2),(1,4),(2,24),(1,3),(1,26)]` with scan run `k = 3` and the
trigger `n - k = 3 ≥ 3` firing — yet the prefix entry `(1,4)` survives the
push while the non-prefix entry `(1,3)` is removed, because the `k` pops
remove the `k` least entries of the whole heap, not the positional prefix. -/
theorem FairLimitedHeap.push_eviction_positional_cex :
    (FairLimitedHeap.pushSeq (β := ℤ) (α := ℤ) 3
        [(26, 1), (24, 2), (1, 1), (2, 1), (3, 1)]).data
      = [(1, 1), (1, 2), (1, 26), (2, 24), (1, 3)] ∧
    heappush [((1 : ℤ), (1 : ℤ)), (1, 2), (1, 26), (2, 24), (1, 3)] (1, 4)
      = [(1, 1), (1, 2), (1, 4), (2, 24), (1, 3), (1, 26)] ∧
    FairLimitedHeap.scanIndex
        [((1 : ℤ), (1 : ℤ)), (1, 2), (1, 4), (2, 24), (1, 3), (1, 26)] = 3 ∧
    List.take 3 [((1 : ℤ), (1 : ℤ)), (1, 2), (1, 4), (2, 24), (1, 3), (1, 26)]
      = [(1, 1), (1, 2), (1, 4)] ∧
    ((3 : Nat) ≤ 6 - 3) ∧
    ((FairLimitedHeap.pushSeq (β := ℤ) (α := ℤ) 3
        [(26, 1), (24, 2), (1, 1), (2, 1), (3, 1)]).push 4 1).data
      = [(1, 4), (1, 26), (2, 24)] ∧
    ((1 : ℤ), (4 : ℤ)) ∈ ((FairLimitedHeap.pushSeq (β := ℤ) (α := ℤ) 3
        [(26, 1), (24, 2), (1, 1), (2, 1), (3, 1)]).push 4 1).data ∧
    ((1 : ℤ), (3 : ℤ)) ∉ ((FairLimitedHeap.pushSeq (β := ℤ) (α := ℤ) 3
        [(26, 1), (24, 2), (1, 1), (2, 1), (3, 1)]).push 4 1).data := by
  decide

/-- C1 (amended): eviction rule of `push`.  Let `d` be the post-insertion
array and `k` the run-length of the leading tie block (positions `0..k-1`
share the minimum score, position `k` scores differently).  If
`(current_size - k) ≥ soft_limit` then exactly `k` entries are removed, each
bearing the minimum score — namely the `k` least entries of `d` under the
tuple order (these coincide with the positional prefix only when the tied
minimums are exactly that prefix) — and if `(current_size - k) < soft_limit`
then no entry is removed. -/
theorem FairLimitedHeap.push_eviction_removes_k_least
    (h : FairLimitedHeap β α) (item : α) (value : β) (hh : IsHeap h.data)
    (k : Nat)
    (hover : h.soft_limit < (heappush h.data (value, item)).length)
    (hk : k < (heappush h.data (value, item)).length)
    (hall : ∀ i, ∀ hi : i < (heappush h.data (value, item)).length, i < k →
      ((heappush h.data (value, item))[i]).1
        = ((heappush h.data (value, item))[0]).1)
    (hbreak : ((heappush h.data (value, item))[k]).1
        ≠ ((heappush h.data (value, item))[0]).1) :
    (h.soft_limit ≤ (heappush h.data (value, item)).length - k →
      ∃ rem : List (β × α),
        (h.push item value).data
          = FairLimitedHeap.popN (heappush h.data (value, item)) k ∧
        rem.length = k ∧
        List.Perm (heappush h.data (value, item))
          (rem ++ (h.push item value).data) ∧
        (∀ e ∈ rem, e.1 = ((heappush h.data (value, item))[0]).1) ∧
        (∀ e ∈ rem, ∀ f ∈ (h.push item value).data, plt f e = false)) ∧
    ((heappush h.data (value, item)).length - k < h.soft_limit →
      (h.push item value).data = heappush h.data (value, item)) := by
  have hd : IsHeap (heappush h.data (value, item)) :=
    (Heapq.heappush_correct h.data (value, item) hh).1
  have hk1 : 1 ≤ k := by
    rcases Nat.eq_zero_or_pos k with h0 | h0
    · exfalso
      apply hbreak
      exact congrArg Prod.fst (getElem_idx_congr _ h0 hk (by omega))
    · exact h0
  have hscan : FairLimitedHeap.scanIndex (heappush h.data (value, item)) = k :=
    FairLimitedHeap.scanIndex_eq _ k hk hk1 hall hbreak
  constructor
  · intro hcond
    obtain ⟨rem, hlen, hperm, hheap, hrlen, hord⟩ :=
      FairLimitedHeap.popN_spec k (heappush h.data (value, item)) hd (le_of_lt hk)
    have hpush_eq : (h.push item value).data
        = FairLimitedHeap.popN (heappush h.data (value, item)) k := by
      simp only [FairLimitedHeap.push, hscan]
      rw [if_neg (by omega), if_pos hcond]
    refine ⟨rem, hpush_eq, hlen, ?_, ?_, ?_⟩
    · rw [hpush_eq]
      exact hperm
    · intro e he
      obtain ⟨r0, hr0⟩ : ∃ r0 : β,
          ((heappush h.data (value, item))[0]).1 = r0 := ⟨_, rfl⟩
      rw [hr0]
      by_contra hneq
      have hed : e ∈ heappush h.data (value, item) :=
        hperm.mem_iff.mpr (List.mem_append.mpr (Or.inl he))
      have hge := Heapq.score_le_of_plt_false
        (Heapq.isHeap_mem_le_root _ hd e hed (by omega))
      rw [hr0] at hge
      have hlt : r0 < e.1 := lt_of_le_of_ne hge (fun ee => hneq ee.symm)
      have hcount : k ≤ (heappush h.data (value, item)).countP
          (fun f => decide (f.1 = r0)) := by
        apply FairLimitedHeap.countP_ge_of_prefixAll _ _ k (by omega)
        intro i hi hik
        simp only [decide_eq_true_eq]
        rw [← hr0]
        exact hall i hi hik
      have hsplit := hperm.countP_eq (fun f => decide (f.1 = r0))
      rw [List.countP_append] at hsplit
      have hremlt : rem.countP (fun f => decide (f.1 = r0)) < rem.length :=
        FairLimitedHeap.countP_lt_length_of_mem he (by simp [hneq])
      have hkeptpos : 0 <
          (FairLimitedHeap.popN (heappush h.data (value, item)) k).countP
            (fun f => decide (f.1 = r0)) := by
        omega
      obtain ⟨f, hf, hpf⟩ := List.countP_pos_iff.mp hkeptpos
      have hforder := hord e he f hf
      have hft : plt f e = true := by
        rw [Heapq.plt_iff]
        left
        have hf1 : f.1 = r0 := by simpa using hpf
        rw [hf1]
        exact hlt
      rw [hforder] at hft
      exact absurd hft (by simp)
    · intro e he f hf
      exact hord e he f (by rwa [hpush_eq] at hf)
  · intro hcond
    simp only [FairLimitedHeap.push, hscan]
    rw [if_neg (by omega), if_neg (by omega)]

/-- C1 (witness): the amended eviction rule applied at a concrete heap
(`soft_limit = 2`, data `[(1,5),(2,6)]`, push of item `7` with score `2`,
run-length `k = 1`), with every hypothesis discharged by evaluation. -/
theorem FairLimitedHeap.push_eviction_removes_k_least_witness :
    IsHeap [((1 : ℤ), (5 : ℤ)), (2, 6)] ∧
    (((2 : Nat) ≤ ([((1 : ℤ), (5 : ℤ)), (2, 6), (2, 7)] : List (ℤ × ℤ)).length - 1 →
      ∃ rem : List (ℤ × ℤ),
        ((FairLimitedHeap.mk 2 [((1 : ℤ), (5 : ℤ)), (2, 6)]).push 7 2).data
          = FairLimitedHeap.popN [((1 : ℤ), (5 : ℤ)), (2, 6), (2, 7)] 1 ∧
        rem.length = 1 ∧
        List.Perm ([((1 : ℤ), (5 : ℤ)), (2, 6), (2, 7)] : List (ℤ × ℤ))
          (rem ++ ((FairLimitedHeap.mk 2 [((1 : ℤ), (5 : ℤ)), (2, 6)]).push 7 2).data) ∧
        (∀ e ∈ rem, e.1 = 1) ∧
        (∀ e ∈ rem,
          ∀ f ∈ ((FairLimitedHeap.mk 2 [((1 : ℤ), (5 : ℤ)), (2, 6)]).push 7 2).data,
            plt f e = false)) ∧
    (([((1 : ℤ), (5 : ℤ)), (2, 6), (2, 7)] : List (ℤ × ℤ)).length - 1 < 2 →
      ((FairLimitedHeap.mk 2 [((1 : ℤ), (5 : ℤ)), (2, 6)]).push 7 2).data
        = [((1 : ℤ), (5 : ℤ)), (2, 6), (2, 7)])) :=
  ⟨by decide,
    FairLimitedHeap.push_eviction_removes_k_least
      (FairLimitedHeap.mk 2 [((1 : ℤ), (5 : ℤ)), (2, 6)]) 7 2 (by decide) 1
      (by decide) (by decide) (by decide) (by decide)⟩

/-- C2 (code evaluated at the failing input): with `soft_limit = 3`, after
pushes of items `1..8` at score `3` and `9, 10` at score `4`, two `pop(True)`
calls, and one `push(11, 4)`, the heap is left with `4 > 3` entries while
only one of the six entries tied at the pre-push minimum score `3` remains:
a single push removed some but not all of the tied-minimum group, violating
Invariant B (and the class docstring), because the tie scan assumes the tied
minimums are contiguous at the front of the heap array. -/
theorem FairLimitedHeap.push_unfair_tie_eviction_run :
    FairLimitedHeap.pushSeq (β := ℤ) (α := ℤ) 3
        [(1, 3), (2, 3), (3, 3), (4, 3), (5, 3), (6, 3), (7, 3), (8, 3), (9, 4), (10, 4)]
      = FairLimitedHeap.mk 3
          [(3, 1), (3, 2), (3, 3), (3, 4), (3, 5), (3, 6), (3, 7), (3, 8), (4, 9), (4, 10)] ∧
    ((FairLimitedHeap.mk 3
        [((3 : ℤ), (1 : ℤ)), (3, 2), (3, 3), (3, 4), (3, 5), (3, 6), (3, 7), (3, 8),
          (4, 9), (4, 10)]).pop true).2
      = FairLimitedHeap.mk 3
          [(3, 2), (3, 4), (3, 3), (3, 8), (3, 5), (3, 6), (3, 7), (4, 10), (4, 9)] ∧
    ((FairLimitedHeap.mk 3
        [((3 : ℤ), (2 : ℤ)), (3, 4), (3, 3), (3, 8), (3, 5), (3, 6), (3, 7), (4, 10),
          (4, 9)]).pop true).2
      = FairLimitedHeap.mk 3
          [(3, 3), (3, 4), (3, 6), (3, 8), (3, 5), (4, 9), (3, 7), (4, 10)] ∧
    List.countP (fun e => decide (e.1 = 3))
        [((3 : ℤ), (3 : ℤ)), (3, 4), (3, 6), (3, 8), (3, 5), (4, 9), (3, 7), (4, 10)] = 6 ∧
    (FairLimitedHeap.mk 3
        [((3 : ℤ), (3 : ℤ)), (3, 4), (3, 6), (3, 8), (3, 5), (4, 9), (3, 7),
          (4, 10)]).push 11 4
      = FairLimitedHeap.mk 3 [(3, 8), (4, 10), (4, 9), (4, 11)] ∧
    List.countP (fun e => decide (e.1 = 3))
        [((3 : ℤ), (8 : ℤ)), (4, 10), (4, 9), (4, 11)] = 1 ∧
    ([((3 : ℤ), (8 : ℤ)), (4, 10), (4, 9), (4, 11)] : List (ℤ × ℤ)).length = 4 ∧
    (3 : Nat) < 4 := by
  decide

/-- C3: heap property.  For every soft limit and every sequence of pushes
from an empty heap, whenever the resulting internal array is nonempty, its
front entry is not greater than any stored entry under the `(score, item)`
tuple order, `pop(True)` returns exactly that front entry, and popping leaves
the remaining entries. -/
theorem FairLimitedHeap.pushSeq_heap_property (L : Nat) (ps : List (α × β)) :
    ∀ h0 : 0 < (FairLimitedHeap.pushSeq (β := β) L ps).data.length,
      (∀ e ∈ (FairLimitedHeap.pushSeq (β := β) L ps).data,
        plt e ((FairLimitedHeap.pushSeq (β := β) L ps).data[0]) = false) ∧
      ((FairLimitedHeap.pushSeq (β := β) L ps).pop true).1
        = Except.ok (PopResult.pair ((FairLimitedHeap.pushSeq (β := β) L ps).data[0])) ∧
      List.Perm (FairLimitedHeap.pushSeq (β := β) L ps).data
        ((FairLimitedHeap.pushSeq (β := β) L ps).data[0]
          :: ((FairLimitedHeap.pushSeq (β := β) L ps).pop true).2.data) := by
  intro h0
  have hh : IsHeap (FairLimitedHeap.pushSeq (β := β) L ps).data :=
    FairLimitedHeap.foldl_push_isHeap ps (FairLimitedHeap.init L [])
      (by intro c hc h0c; simp [FairLimitedHeap.init, FairLimitedHeap.initLoop] at hc)
  have hne : (FairLimitedHeap.pushSeq (β := β) L ps).data ≠ [] := by
    intro e
    rw [e] at h0
    simp at h0
  obtain ⟨d2, hpop, hh2, hperm, hlen⟩ :=
    FairLimitedHeap.pop_true_eq _ hh hne h0
  refine ⟨?_, ?_, ?_⟩
  · intro e he
    exact Heapq.isHeap_mem_le_root _ hh e he h0
  · rw [hpop]
  · rw [hpop]
    exact hperm

/-- C3 (witness): the heap property at `soft_limit = 2` after pushing items
`5` and `6` with scores `1` and `2`. -/
theorem FairLimitedHeap.pushSeq_heap_property_witness :
    (0 : Nat) < (FairLimitedHeap.pushSeq (β := ℤ) (α := ℤ) 2 [(5, 1), (6, 2)]).data.length ∧
    ((∀ e ∈ [((1 : ℤ), (5 : ℤ)), (2, 6)], plt e ((1 : ℤ), (5 : ℤ)) = false) ∧
      ((FairLimitedHeap.pushSeq (β := ℤ) (α := ℤ) 2 [(5, 1), (6, 2)]).pop true).1
        = Except.ok (PopResult.pair (1, 5)) ∧
      List.Perm [((1 : ℤ), (5 : ℤ)), (2, 6)]
        (((1 : ℤ), (5 : ℤ))
          :: ((FairLimitedHeap.pushSeq (β := ℤ) (α := ℤ) 2 [(5, 1), (6, 2)]).pop
              true).2.data)) :=
  ⟨by decide, by
    have h0 : 0 < (FairLimitedHeap.pushSeq (β := ℤ) (α := ℤ) 2
        [(5, 1), (6, 2)]).data.length := by decide
    have e0q : (FairLimitedHeap.pushSeq (β := ℤ) (α := ℤ) 2
        [(5, 1), (6, 2)]).data[0]? = some ((1 : ℤ), (5 : ℤ)) := by decide
    have e0 : (FairLimitedHeap.pushSeq (β := ℤ) (α := ℤ) 2
        [(5, 1), (6, 2)]).data[0] = ((1 : ℤ), (5 : ℤ)) := by
      rw [List.getElem?_eq_getElem h0] at e0q
      exact Option.some.inj e0q
    have edata : (FairLimitedHeap.pushSeq (β := ℤ) (α := ℤ) 2
        [(5, 1), (6, 2)]).data = [((1 : ℤ), (5 : ℤ)), (2, 6)] := by decide
    have h := FairLimitedHeap.pushSeq_heap_property 2 [(5, 1), (6, 2)] h0
    rw [e0] at h
    rw [edata] at h
    exact h⟩

/-- C4 (code evaluated at the failing input): with `soft_limit = 1`, pushing
two entries that share score `3` evicts one of them — the final size is `1`,
not `2` — because the exhausted scan loop leaves `index = n - 1` (not `n`),
so `(current_size - k)` is `1` rather than `0` and the eviction fires for
`soft_limit = 1`.  The claim (and the spec's `(current_size - k) == 0`
reasoning, and the class docstring's promise never to split a tied group)
says an all-tied heap never shrinks for any positive soft limit. -/
theorem FairLimitedHeap.all_tied_soft_limit_one_eviction_run :
    (FairLimitedHeap.init (β := ℤ) (α := ℤ) 1 []).push 1 3
      = FairLimitedHeap.mk 1 [(3, 1)] ∧
    (FairLimitedHeap.mk 1 [((3 : ℤ), (1 : ℤ))]).push 2 3
      = FairLimitedHeap.mk 1 [(3, 2)] ∧
    ((FairLimitedHeap.mk 1 [((3 : ℤ), (1 : ℤ))]).push 2 3).data.length = 1 := by
  decide

/-- C5 (code evaluated at the failing input): on the 3-item heap built by
three pushes, `pop(False)` does not return the minimum item `10` — it
raises `AttributeError`, because the source pops from `self._data[1]` (a
tuple) instead of `self._data` — while `pop(True)` correctly returns the
minimum `(score, item)` pair and shrinks the heap to 2 entries. -/
theorem FairLimitedHeap.pop_false_branch_failure_run :
    (((FairLimitedHeap.init (β := ℤ) (α := ℤ) 5 []).push 10 1).push 20 2).push 30 3
      = FairLimitedHeap.mk 5 [(1, 10), (2, 20), (3, 30)] ∧
    (FairLimitedHeap.mk 5 [((1 : ℤ), (10 : ℤ)), (2, 20), (3, 30)]).pop false
      = (Except.error PyErr.attributeError,
          FairLimitedHeap.mk 5 [(1, 10), (2, 20), (3, 30)]) ∧
    (FairLimitedHeap.mk 5 [((1 : ℤ), (10 : ℤ)), (2, 20), (3, 30)]).pop true
      = (Except.ok (PopResult.pair (1, 10)),
          FairLimitedHeap.mk 5 [(2, 20), (3, 30)]) := by
  decide

/-- C6 (counterexample): constructing with `initial = [(1, 2)]` yields the
internal array `[(1, 2)]` (the constructor reads each pair as
`(score, item)`), while pushing the same pair through `push` in the same
component order (`push(1, 2)`, item `1`, score `2`) yields `[(2, 1)]` — the
two heaps are not equal, so construction-from-initial is not equivalent to
pushing the raw pairs one-by-one. -/
theorem FairLimitedHeap.init_push_pair_order_cex :
    FairLimitedHeap.init (β := ℤ) (α := ℤ) 100 [(1, 2)]
      = FairLimitedHeap.mk 100 [(1, 2)] ∧
    (FairLimitedHeap.init (β := ℤ) (α := ℤ) 100 []).push 1 2
      = FairLimitedHeap.mk 100 [(2, 1)] ∧
    FairLimitedHeap.init (β := ℤ) (α := ℤ) 100 [(1, 2)]
      ≠ [((1 : ℤ), (2 : ℤ))].foldl (fun h p => h.push p.1 p.2)
          (FairLimitedHeap.init (β := ℤ) (α := ℤ) 100 []) := by
  decide

theorem FairLimitedHeap.initLoop_eq_foldl (P : List (β × α)) :
    ∀ s : FairLimitedHeap β α,
      FairLimitedHeap.initLoop s P
        = P.foldl (fun h p => h.push p.2 p.1) s := by
  induction P with
  | nil => intro s; rfl
  | cons p t ih =>
    intro s
    simp only [FairLimitedHeap.initLoop, List.foldl_cons]
    exact ih _

/-- C6 (amended): constructing with `initial = P` equals constructing empty
and pushing each pair of `P` in order with its components swapped into
`push` — each pair `(a, b)` of `initial` is inserted as `push(b, a)` (item
`b`, score `a`), because the constructor reads initial pairs as
`(score, item)` while `push` takes `(item, score)`.  Under that reading the
two constructions produce equal heaps (strict representation equality), and
every initial entry does go through the ordinary `push`. -/
theorem FairLimitedHeap.init_eq_foldl_push_swapped (L : Nat) (P : List (β × α)) :
    FairLimitedHeap.init L P
      = P.foldl (fun h p => h.push p.2 p.1) (FairLimitedHeap.init (β := β) L []) :=
  FairLimitedHeap.initLoop_eq_foldl P _

/-- C7: NaN filtering.  Pushing with a NaN score is a silent no-op — the
state, hence the length and the sorted contents, is unchanged and no error
value is produced — while pushing any non-NaN score (the score type `β` may
itself provide `±∞`, e.g. `WithBot (WithTop ℚ)`) produces exactly the state
the base `FairLimitedHeap.push` produces. -/
theorem NonNanFairLimitedHeap.push_nan_filter_spec :
    ∀ (h : FairLimitedHeap β α) (item : α),
      (NonNanFairLimitedHeap.isnan (none : Option β) = true ∧
        NonNanFairLimitedHeap.push h item none = h ∧
        (NonNanFairLimitedHeap.push h item none).data.length = h.data.length ∧
        (∀ b : Bool, (NonNanFairLimitedHeap.push h item none).as_sorted_list b
          = h.as_sorted_list b)) ∧
      ∀ v : β, NonNanFairLimitedHeap.isnan (some v) = false ∧
        NonNanFairLimitedHeap.push h item (some v) = FairLimitedHeap.push h item v :=
  fun _ _ => ⟨⟨rfl, rfl, rfl, fun _ => rfl⟩, fun _ => ⟨rfl, rfl⟩⟩

/-- C8: `as_sorted_list` returns exactly the current entries in ascending
`(score, item)` tuple order — the pairs when `include_values` is true,
otherwise the items in that same order — and, being built from a sorting
copy of the internal list (the translation of Python's `sorted`, which does
not touch `self._data`), it leaves the heap unchanged, so repeated calls
agree definitionally. -/
theorem FairLimitedHeap.as_sorted_list_spec (h : FairLimitedHeap β α) :
    List.Perm (FairLimitedHeap.sortPairs h.data) h.data ∧
    List.Pairwise FairLimitedHeap.ple (FairLimitedHeap.sortPairs h.data) ∧
    h.as_sorted_list true = Sum.inl (FairLimitedHeap.sortPairs h.data) ∧
    h.as_sorted_list false
      = Sum.inr ((FairLimitedHeap.sortPairs h.data).map Prod.snd) := by
  refine ⟨List.perm_insertionSort _ h.data, ?_, rfl, rfl⟩
  haveI ht : IsTrans (β × α) (FairLimitedHeap.ple (β := β) (α := α)) :=
    ⟨fun _ _ _ hab hbc => Heapq.pge_trans hbc hab⟩
  haveI htot : IsTotal (β × α) (FairLimitedHeap.ple (β := β) (α := α)) :=
    ⟨fun a b => by
      cases hab : plt b a with
      | false => exact Or.inl hab
      | true => exact Or.inr (Heapq.plt_asymm hab)⟩
  exact List.sorted_insertionSort _ h.data

/-- C9 (code evaluated at the failing input): on an empty heap the two `pop`
branches do not fail uniformly with an explicit empty-collection error —
`pop(True)` raises `IndexError: pop from empty list` (a genuine
empty-collection error from `heapq`) while `pop(False)` raises
`IndexError: list index out of range` from subscripting `self._data[1]`;
the two errors differ, and the `False` branch fails with `AttributeError`
even on a two-entry heap, so its failure is unrelated to emptiness.  The
heap is left unchanged in every case. -/
theorem FairLimitedHeap.pop_empty_error_runs :
    (FairLimitedHeap.init (β := ℤ) (α := ℤ) 5 []).pop true
      = (Except.error PyErr.popFromEmptyList,
          FairLimitedHeap.init (β := ℤ) (α := ℤ) 5 []) ∧
    (FairLimitedHeap.init (β := ℤ) (α := ℤ) 5 []).pop false
      = (Except.error PyErr.listIndexOutOfRange,
          FairLimitedHeap.init (β := ℤ) (α := ℤ) 5 []) ∧
    PyErr.popFromEmptyList ≠ PyErr.listIndexOutOfRange ∧
    (FairLimitedHeap.mk 7 [((1 : ℤ), (10 : ℤ)), (2, 20)]).pop false
      = (Except.error PyErr.attributeError,
          FairLimitedHeap.mk 7 [(1, 10), (2, 20)]) := by
  decide

/-- C10: eviction never undershoots the soft limit.  For a positive soft
limit, the size after a push is at least `min (old size + 1) soft_limit`;
in particular whenever the push shrinks the heap (i.e. the eviction branch
removed entries) the resulting size is still at least `soft_limit`, and a
push onto a heap of size at least `soft_limit` never leaves it smaller than
`soft_limit`. -/
theorem FairLimitedHeap.push_size_never_undershoots (h : FairLimitedHeap β α)
    (item : α) (value : β) (hL : 0 < h.soft_limit) :
    min (h.data.length + 1) h.soft_limit ≤ (h.push item value).data.length ∧
    ((h.push item value).data.length < h.data.length + 1 →
      h.soft_limit ≤ (h.push item value).data.length) ∧
    (h.soft_limit ≤ h.data.length →
      h.soft_limit ≤ (h.push item value).data.length) := by
  have hlen := Heapq.heappush_length h.data (value, item)
  have hne : heappush h.data (value, item) ≠ [] := by
    intro e
    rw [e] at hlen
    simp at hlen
  have hsc := FairLimitedHeap.scanIndex_lt_length _ hne
  have hplen := FairLimitedHeap.popN_length
    (FairLimitedHeap.scanIndex (heappush h.data (value, item)))
    (heappush h.data (value, item)) (le_of_lt hsc)
  simp only [FairLimitedHeap.push]
  split
  · next hc1 =>
    refine ⟨by dsimp only; omega, by dsimp only; omega, by dsimp only; omega⟩
  · next hc1 =>
    split
    · next hc2 =>
      refine ⟨?_, ?_, ?_⟩ <;> (dsimp only; rw [hplen]; omega)
    · next hc2 =>
      refine ⟨by dsimp only; omega, by dsimp only; omega, by dsimp only; omega⟩

/-- C10 (witness): the size lower bound applied at a concrete push onto an
empty heap with `soft_limit = 2`. -/
theorem FairLimitedHeap.push_size_never_undershoots_witness :
    (0 : Nat) < 2 ∧
    (min (([] : List (ℤ × ℤ)).length + 1) 2
        ≤ ((FairLimitedHeap.mk 2 ([] : List (ℤ × ℤ))).push 0 0).data.length ∧
      (((FairLimitedHeap.mk 2 ([] : List (ℤ × ℤ))).push 0 0).data.length
          < ([] : List (ℤ × ℤ)).length + 1 →
        2 ≤ ((FairLimitedHeap.mk 2 ([] : List (ℤ × ℤ))).push 0 0).data.length) ∧
      ((2 : Nat) ≤ ([] : List (ℤ × ℤ)).length →
        2 ≤ ((FairLimitedHeap.mk 2 ([] : List (ℤ × ℤ))).push 0 0).data.length)) :=
  ⟨by decide,
    FairLimitedHeap.push_size_never_undershoots
      (FairLimitedHeap.mk 2 ([] : List (ℤ × ℤ))) 0 0 (by decide)⟩

end Claims
